import Mathlib

/-!
# MyCShell (`shl.c`): a shallow embedding and its verified properties

The C program is a read / tokenize / dispatch loop.  The embedding keeps the
shape of the source:

* a C function becomes a Lean function from the `World` it is called in to a
  `Res`: either it returns a value in a new world, or the process stops there
  (`exit`, a successful `execvp`, a call that never returns, an access outside
  an allocated block);
* the environment (heap, `chdir`, `fork`, `execvp`, `waitpid`) is an explicit
  `Env` of oracles, so every theorem quantifies over what the operating system
  may answer;
* heap blocks are lists of cells with an explicit capacity; every store is
  bounds checked;
* characters (`char`, and the non-`EOF` values of `getchar`) are `Char`; the
  `int` counters `bufsize`, `position`, `i` only ever count up from a
  non-negative start and are natural numbers (in the source `bufsize` would
  pass `INT_MAX` only on a line of `2^31 - 1024` characters or more, a case
  the embedding does not describe).
-/

namespace CSH

/-! ## Constants of the source -/

/-- `#define CSH_RL_BUFSIZE 1024`. -/
def CSH_RL_BUFSIZE : Nat := 1024

/-- `#define CSH_TOK_BUFSIZE 64`. -/
def CSH_TOK_BUFSIZE : Nat := 64

/-- `#define CSH_TOK_DELIM " \t\r\n\a"`: space, tab, carriage return, newline, bell. -/
def CSH_TOK_DELIM : List Char := [' ', '\t', '\r', '\n', '\x07']

/-- The terminating character of a C string. -/
def NUL : Char := '\x00'

/-- `sizeof(char)`. -/
def SIZEOF_CHAR : Nat := 1

/-- `sizeof(char*)` (LP64). -/
def SIZEOF_CHAR_PTR : Nat := 8

/-- `EXIT_SUCCESS` of `stdlib.h`. -/
def EXIT_SUCCESS : Nat := 0

/-- `EXIT_FAILURE` of `stdlib.h`. -/
def EXIT_FAILURE : Nat := 1

/-! ## The world a function runs in -/

/-- What `waitpid(pid, &status, WUNTRACED)` can report about the child. -/
inductive WaitStatus where
  | exited (code : Nat)
  | signaled (sig : Nat)
  | stopped (sig : Nat)
  deriving DecidableEq, Repr

/-- `WIFEXITED(status)`. -/
def WIFEXITED : WaitStatus → Bool
  | .exited _ => true
  | _ => false

/-- `WIFSIGNALED(status)`. -/
def WIFSIGNALED : WaitStatus → Bool
  | .signaled _ => true
  | _ => false

/-- How `fork()` comes back in this process: the value `pid` it returns (`0`
in the new child, a negative value when no child could be created, the child's
pid in the parent) and, for the parent, the statuses that the successive
`waitpid` calls on this child will report, in order; when they are used up the
child changes state no more and `waitpid` does not return. -/
structure ForkResult where
  pid : Int
  statuses : List WaitStatus
  deriving DecidableEq, Repr

/-- The observable actions of the process, in the order they happen. -/
inductive Event where
  /-- Characters written to standard output (`printf`). -/
  | stdout (s : List Char)
  /-- Characters written to standard error (`fprintf(stderr, ...)`). -/
  | stderr (s : List Char)
  /-- A call `perror(tag)`: writes `tag`, a colon and a blank, the operating
  system description of `errno`, and a newline to standard error. -/
  | perror (tag : List Char)
  /-- A call `chdir(path)` and whether it succeeded. -/
  | chdir (path : List Char) (ok : Bool)
  /-- A call `fork()` and how it came back in this process. -/
  | fork (r : ForkResult)
  /-- A call `execvp(file, argv)` and whether the image was replaced. -/
  | execvp (file : List Char) (argv : List (List Char)) (ok : Bool)
  /-- A call `waitpid(pid, &status, WUNTRACED)` that returned with `status`. -/
  | waitpid (pid : Int) (status : WaitStatus)
  deriving DecidableEq, Repr

/-- The state of the process that the program can see or change: the unread
part of standard input and the actions performed so far.  Only the
interpreter reads this input: a child is taken to leave it alone. -/
structure World where
  stdin : List Char
  trace : List Event
  deriving DecidableEq, Repr

/-- The answers of the operating system.  Apart from the heap, which answers
by the number of bytes requested, an oracle sees the whole history of the
process, so it may answer the same call differently at different times. -/
structure Env where
  /-- Does `malloc`/`realloc` of this many bytes succeed? -/
  alloc : Nat → Bool
  /-- Does `chdir(path)` succeed? -/
  chdir : List Event → List Char → Bool
  /-- How does `fork()` come back? -/
  fork : List Event → ForkResult
  /-- Does `execvp(file, argv)` replace the image? -/
  execvp : List Event → List Char → List (List Char) → Bool

/-- Why a call does not return to its caller. -/
inductive Halt where
  /-- The process called `exit(code)`. -/
  | exit (code : Nat)
  /-- The process image was replaced by `execvp`. -/
  | exec
  /-- The call never returns (a wait or a loop without end). -/
  | hang
  /-- An access outside an allocated block, or a read of a cell never
  written: undefined behaviour. -/
  | fault
  deriving DecidableEq, Repr

/-- The outcome of calling a C function. -/
inductive Res (α : Type) where
  | ret (v : α) (w : World)
  | halt (h : Halt) (w : World)
  deriving DecidableEq, Repr

/-- Append one action to the history. -/
def World.emit (w : World) (e : Event) : World :=
  { w with trace := w.trace ++ [e] }

/-- The call `printf(s)` with a format that has no conversion. -/
def printf (s : String) (w : World) : World :=
  w.emit (.stdout s.toList)

/-- The call `fprintf(stderr, s)` with a format that has no conversion. -/
def fprintf_stderr (s : String) (w : World) : World :=
  w.emit (.stderr s.toList)

/-- The call `perror(tag)`. -/
def perror (tag : String) (w : World) : World :=
  w.emit (.perror tag.toList)

/-! ## Heap blocks -/

/-- An allocated block of `length` cells; a cell is `none` until it is written. -/
abbrev Block (α : Type) := List (Option α)

/-- A successful `malloc` of `n` cells: nothing is initialised. -/
def malloc {α : Type} (n : Nat) : Block α :=
  List.replicate n none

/-- A successful `realloc` to `n` cells: the contents are kept up to the
smaller of the two sizes, new cells are not initialised. -/
def realloc {α : Type} (b : Block α) (n : Nat) : Block α :=
  b.take n ++ List.replicate (n - b.length) none

/-- The assignment `b[i] = v`; `none` when `i` is outside the block. -/
def Block.store {α : Type} (b : Block α) (i : Nat) (v : α) : Option (Block α) :=
  if i < b.length then some (b.set i (some v)) else none

/-- The C string that starts at the beginning of a block of characters: the
characters before the first `NUL`.  `none` when the scan leaves the block or
meets a cell never written. -/
def cstring : Block Char → Option (List Char)
  | [] => none
  | none :: _ => none
  | some c :: rest =>
    if c = NUL then some []
    else match cstring rest with
      | some s => some (c :: s)
      | none => none

/-- A `char*` stored in the token array: `NULL`, or a pointer to a C string,
identified with the characters of that string. -/
inductive Ptr where
  | null
  | str (s : List Char)
  deriving DecidableEq, Repr

/-- The strings of a `NULL`-terminated `char**` array: the entries before the
first `NULL`.  `none` when the scan leaves the block or meets a cell never
written. -/
def argv : Block Ptr → Option (List (List Char))
  | [] => none
  | none :: _ => none
  | some .null :: _ => some []
  | some (.str s) :: rest =>
    match argv rest with
    | some l => some (s :: l)
    | none => none

/-! ## `strtok` -/

/-- Membership in a delimiter string, as `strtok` tests it. -/
def isDelim (delim : List Char) (c : Char) : Bool :=
  delim.contains c

/-- One call of the C library's `strtok` on the string `s` (the line on the
first call, the saved position on a call with `NULL`): skip the leading
delimiters; when nothing is left there is no token; otherwise the token runs
up to the next delimiter, which is overwritten by `NUL`, and the scan is saved
just after it (or at the end of the string when the token reaches it).
Returns the token and the saved remainder. -/
def strtok (s : List Char) (delim : List Char) : Option (List Char) × List Char :=
  match s.dropWhile (isDelim delim) with
  | [] => (none, [])
  | c :: cs =>
    (some ((c :: cs).takeWhile (fun x => !isDelim delim x)),
     ((c :: cs).dropWhile (fun x => !isDelim delim x)).tail)

/-! ## `csh_split_line` -/

/-- The `while (token != NULL)` loop of `csh_split_line` and the two
statements after it.  `token` is the result of the last `strtok`, `saved` the
position `strtok` remembers.  Each turn stores one token and takes the next one
from `saved`, which gets shorter; `fuel` bounds the number of turns. -/
def csh_split_line_loop (env : Env) :
    Nat → Option (List Char) → List Char → Nat → Nat → Block Ptr → World → Res (Block Ptr)
  | _, none, _, _, position, tokens, w =>
    -- tokens[position] = NULL; return tokens;
    match tokens.store position Ptr.null with
    | some tokens => .ret tokens w
    | none => .halt .fault w
  | 0, some _, _, _, _, _, w => .halt .hang w
  | fuel + 1, some token, saved, bufsize, position, tokens, w =>
    -- tokens[position] = token;
    match tokens.store position (Ptr.str token) with
    | none => .halt .fault w
    | some tokens =>
      -- position++;
      let position := position + 1
      if position ≥ bufsize then
        -- bufsize += CSH_TOK_BUFSIZE; tokens = realloc(...);
        let bufsize := bufsize + CSH_TOK_BUFSIZE
        if env.alloc (bufsize * SIZEOF_CHAR_PTR) then
          let next := strtok saved CSH_TOK_DELIM
          csh_split_line_loop env fuel next.1 next.2 bufsize position (realloc tokens bufsize) w
        else
          .halt (.exit EXIT_FAILURE) (fprintf_stderr "csh: allocation error\n" w)
      else
        -- token = strtok(NULL, CSH_TOK_DELIM);
        let next := strtok saved CSH_TOK_DELIM
        csh_split_line_loop env fuel next.1 next.2 bufsize position tokens w

/-- The function `csh_split_line(line)`, `line` being the characters of the
C string passed in.  Returns the token array.  The loop is given `line.length`
turns, which it cannot use up: every token takes at least one character. -/
def csh_split_line (env : Env) (line : List Char) (w : World) : Res (Block Ptr) :=
  let bufsize := CSH_TOK_BUFSIZE
  let position := 0
  if env.alloc (bufsize * SIZEOF_CHAR_PTR) then
    let tokens : Block Ptr := malloc bufsize
    let first := strtok line CSH_TOK_DELIM
    csh_split_line_loop env line.length first.1 first.2 bufsize position tokens w
  else
    .halt (.exit EXIT_FAILURE) (fprintf_stderr "lsh: allocation error\n" w)

/-! ## `csh_read_line` -/

/-- The `while (1)` loop of `csh_read_line`.  `input` is the unread part of
standard input: `getchar()` takes its first character, and yields `EOF` when
it is empty.  The world returned holds what is left unread. -/
def csh_read_line_loop (env : Env) :
    List Char → Nat → Nat → Block Char → World → Res (Block Char)
  | [], _, position, buffer, w =>
    -- c == EOF: buffer[position] = 0; return buffer;
    match buffer.store position NUL with
    | some buffer => .ret buffer { w with stdin := [] }
    | none => .halt .fault { w with stdin := [] }
  | c :: input, bufsize, position, buffer, w =>
    if c = '\n' then
      -- c == newline: buffer[position] = 0; return buffer;
      match buffer.store position NUL with
      | some buffer => .ret buffer { w with stdin := input }
      | none => .halt .fault { w with stdin := input }
    else
      -- buffer[position] = c;
      match buffer.store position c with
      | none => .halt .fault { w with stdin := input }
      | some buffer =>
        -- position++;
        let position := position + 1
        if position ≥ bufsize then
          -- bufsize += CSH_RL_BUFSIZE; buffer = realloc(buffer, bufsize);
          let bufsize := bufsize + CSH_RL_BUFSIZE
          if env.alloc bufsize then
            csh_read_line_loop env input bufsize position (realloc buffer bufsize) w
          else
            .halt (.exit EXIT_FAILURE)
              (fprintf_stderr "csh: allocation error\n" { w with stdin := input })
        else
          csh_read_line_loop env input bufsize position buffer w

/-- The function `csh_read_line()`.  Returns the buffer. -/
def csh_read_line (env : Env) (w : World) : Res (Block Char) :=
  let bufsize := CSH_RL_BUFSIZE
  let position := 0
  if env.alloc (SIZEOF_CHAR * bufsize) then
    let buffer : Block Char := malloc bufsize
    csh_read_line_loop env w.stdin bufsize position buffer w
  else
    .halt (.exit EXIT_FAILURE) (fprintf_stderr "csh: allocation error\n" w)

/-! ## The builtins and the launcher

A `char **args` argument is the list of the strings before its `NULL` end
marker: `args[0] == NULL` is `args = []`. -/

/-- The table `builtin_str`. -/
def builtin_str : List (List Char) :=
  ["cd".toList, "help".toList, "exit".toList]

/-- The function `csh_num_builtins()`: `sizeof(builtin_str) / sizeof(char *)`. -/
def csh_num_builtins : Nat :=
  builtin_str.length

/-- The function `csh_cd(args)`.  With `args[0] == NULL` the read of `args[1]`
is past the end marker. -/
def csh_cd (env : Env) (args : List (List Char)) (w : World) : Res Int :=
  match args with
  | [] => .halt .fault w
  | [_] =>
    -- args[1] == NULL
    .ret 1 (fprintf_stderr "csh: expected argument to \"cd\"\n" w)
  | _ :: path :: _ =>
    let ok := env.chdir w.trace path
    let w := w.emit (.chdir path ok)
    if !ok then .ret 1 (perror "csh" w) else .ret 1 w

/-- The function `csh_help(args)`. -/
def csh_help (_env : Env) (_args : List (List Char)) (w : World) : Res Int :=
  let w := printf "Amedeo Chiefa's Shell\n" w
  let w := printf "Type program names and arguments, and hit enter.\n" w
  let w := printf "The following are built in:\n" w
  -- for (i = 0; i < csh_num_builtins(); i++) printf("  %s\n", builtin_str[i]);
  let w := builtin_str.foldl
    (fun w name => w.emit (.stdout ("  ".toList ++ name ++ "\n".toList))) w
  let w := printf "Use the man command for information on other programs.\n" w
  .ret 1 w

/-- The function `csh_exit(args)`. -/
def csh_exit (_env : Env) (_args : List (List Char)) (w : World) : Res Int :=
  .ret 0 w

/-- The `do ... while (!WIFEXITED(status) && !WIFSIGNALED(status))` loop of
`csh_launch`, over the statuses the successive `waitpid` calls report. -/
def csh_launch_wait (pid : Int) : List WaitStatus → World → Res Unit
  | [], w => .halt .hang w
  | status :: later, w =>
    let w := w.emit (.waitpid pid status)
    if !WIFEXITED status && !WIFSIGNALED status then csh_launch_wait pid later w
    else .ret () w

/-- The function `csh_launch(args)`. -/
def csh_launch (env : Env) (args : List (List Char)) (w : World) : Res Int :=
  -- pid = fork();
  let r := env.fork w.trace
  let pid := r.pid
  let w := w.emit (.fork r)
  if pid = 0 then
    -- Child process
    match args with
    | [] => .halt .fault w
    | file :: _ =>
      let ok := env.execvp w.trace file args
      let w := w.emit (.execvp file args ok)
      if ok then .halt .exec w
      else .halt (.exit EXIT_FAILURE) (perror "csh" w)
  else if pid < 0 then
    -- Error forking
    .ret 1 (perror "csh" w)
  else
    -- Parent process
    match csh_launch_wait pid r.statuses w with
    | .ret _ w => .ret 1 w
    | .halt h w => .halt h w

/-- The table `builtin_func`, entry by entry the handler of `builtin_str`. -/
def builtin_func : List (Env → List (List Char) → World → Res Int) :=
  [csh_cd, csh_help, csh_exit]

/-- The C library's `strcmp` on two strings: zero exactly when they are equal,
negative or positive as the first string is before or after the second in
the order of their first differing characters (a string that ends first being
before). -/
def strcmp : List Char → List Char → Int
  | [], [] => 0
  | [], _ :: _ => -1
  | _ :: _, [] => 1
  | a :: s, b :: t => if a = b then strcmp s t else if a.toNat < b.toNat then -1 else 1

/-- The `for (i = 0; i < csh_num_builtins(); i++)` loop of `csh_execute` from
index `i` on, with `todo` turns left, and the `return csh_launch(args)` after
it.  `cmd` is `args[0]`. -/
def csh_execute_for (env : Env) (cmd : List Char) (args : List (List Char)) (w : World) :
    Nat → Nat → Res Int
  | 0, _ => csh_launch env args w
  | todo + 1, i =>
    match builtin_str[i]?, builtin_func[i]? with
    | some name, some func =>
      if strcmp cmd name = 0 then func env args w
      else csh_execute_for env cmd args w todo (i + 1)
    | _, _ => .halt .fault w

/-- The function `csh_execute(args)`. -/
def csh_execute (env : Env) (args : List (List Char)) (w : World) : Res Int :=
  match args with
  | [] =>
    -- An empty command was entered.
    .ret 1 w
  | cmd :: _ => csh_execute_for env cmd args w csh_num_builtins 0

/-! ## `csh_loop` and `main` -/

/-- One turn of the `do ... while (status)` loop of `csh_loop`: prompt, read,
split, execute.  Returns `status`. -/
def csh_loop_body (env : Env) (w : World) : Res Int :=
  let w := printf "> " w
  match csh_read_line env w with
  | .halt h w => .halt h w
  | .ret buffer w =>
    match cstring buffer with
    | none => .halt .fault w
    | some line =>
      match csh_split_line env line w with
      | .halt h w => .halt h w
      | .ret tokens w =>
        match argv tokens with
        | none => .halt .fault w
        | some args => csh_execute env args w

/-- The function `csh_loop()`, allowed at most `fuel` turns of its loop:
`none` when the loop is still running after them. -/
def csh_loop (env : Env) : Nat → World → Option (Res Unit)
  | 0, _ => none
  | fuel + 1, w =>
    match csh_loop_body env w with
    | .halt h w => some (.halt h w)
    | .ret status w => if status ≠ 0 then csh_loop env fuel w else some (.ret () w)

/-- The function `main`: run the loop, then `return EXIT_SUCCESS`. -/
def main (env : Env) (fuel : Nat) (w : World) : Option (Res Nat) :=
  match csh_loop env fuel w with
  | none => none
  | some (.halt h w) => some (.halt h w)
  | some (.ret _ w) => some (.ret EXIT_SUCCESS w)

/-! ## Notions the statements use -/

/-- The block of capacity `cap` whose first cells hold `written`, in order,
and whose other cells were never written. -/
def filled {α : Type} (written : List α) (cap : Nat) : Block α :=
  written.map some ++ List.replicate (cap - written.length) none

/-- The maximal runs of non-delimiter characters of a line, left to right, in
the words of the specification: cut the line at every delimiter and keep the
pieces that are not empty. -/
def maximalRuns (line : List Char) : List (List Char) :=
  (line.splitOnP (isDelim CSH_TOK_DELIM)).filter (fun piece => !piece.isEmpty)

/-- The tokens still to come when `strtok` has just returned `token` and
saved `saved`. -/
def pendingTokens (token : Option (List Char)) (saved : List Char) : List (List Char) :=
  match token with
  | none => []
  | some t => t :: maximalRuns saved

/-- The tokens joined with a single space between neighbours. -/
def joinWithSpace (toks : List (List Char)) : List Char :=
  List.intercalate [' '] toks

/-- An environment for concrete runs: the heap grants every request, `chdir`
succeeds, `fork` fails. -/
def plainEnv : Env :=
  { alloc := fun _ => true, chdir := fun _ _ => true, fork := fun _ => ⟨-1, []⟩,
    execvp := fun _ _ _ => false }

/-- The world after a call, however the call ended. -/
def Res.world {α : Type} : Res α → World
  | .ret _ w => w
  | .halt _ w => w

/-- The actions only `csh_launch` performs. -/
def isLaunchEvent : Event → Bool
  | .fork _ => true
  | .execvp _ _ _ => true
  | .waitpid _ _ => true
  | _ => false

/-- The actions only the builtin handlers perform. -/
def isBuiltinEvent : Event → Bool
  | .stdout _ => true
  | .stderr _ => true
  | .chdir _ _ => true
  | _ => false

/-- An environment whose heap grants nothing. -/
def noHeapEnv : Env :=
  { plainEnv with alloc := fun _ => false }

theorem malloc_eq_filled {α : Type} (n : Nat) : (malloc n : Block α) = filled [] n := by
  simp [malloc, filled]

theorem length_filled {α : Type} (l : List α) (cap : Nat) (h : l.length ≤ cap) :
    (filled l cap).length = cap := by
  simp [filled]; omega

theorem store_filled {α : Type} (l : List α) (cap : Nat) (v : α) (h : l.length < cap) :
    (filled l cap).store l.length v = some (filled (l ++ [v]) cap) := by
  have hlen : (filled l cap).length = cap := length_filled l cap (by omega)
  unfold Block.store
  rw [if_pos (by omega)]
  congr 1
  unfold filled
  obtain ⟨k, hk⟩ : ∃ k, cap - l.length = k + 1 := ⟨cap - l.length - 1, by omega⟩
  have hk2 : cap - (l ++ [v]).length = k := by simp; omega
  rw [hk, hk2, List.replicate_succ]
  have : l.length = (l.map some).length := by simp
  rw [this, List.set_append_right _ _ (le_refl _)]
  simp

theorem realloc_filled {α : Type} (l : List α) (cap cap2 : Nat) (h : l.length ≤ cap)
    (h2 : cap ≤ cap2) : realloc (filled l cap) cap2 = filled l cap2 := by
  unfold realloc
  rw [length_filled l cap h, List.take_of_length_le (by rw [length_filled l cap h]; exact h2)]
  unfold filled
  rw [List.append_assoc, ← List.replicate_add]
  congr 2
  omega

theorem argv_append_null (toks : List (List Char)) (rest : Block Ptr) :
    argv ((toks.map Ptr.str).map some ++ some Ptr.null :: rest) = some toks := by
  induction toks with
  | nil => simp [argv]
  | cons t ts ih =>
    have ih2 : argv ((List.map some (List.map Ptr.str ts)).append (some Ptr.null :: rest))
        = some ts := ih
    simp only [List.map_cons, List.cons_append, argv, ih2]

theorem argv_filled (toks : List (List Char)) (cap : Nat) :
    argv (filled (toks.map Ptr.str ++ [Ptr.null]) cap) = some toks := by
  have := argv_append_null toks (List.replicate (cap - (toks.map Ptr.str ++ [Ptr.null]).length) none)
  simpa [filled] using this

theorem cstring_append_nul (s : List Char) (rest : Block Char) (h : NUL ∉ s) :
    cstring (s.map some ++ some NUL :: rest) = some s := by
  induction s with
  | nil => simp [cstring]
  | cons c cs ih =>
    have hc : c ≠ NUL := fun e => h (by simp [e])
    have hcs : NUL ∉ cs := fun e => h (by simp [e])
    simp [cstring, hc, ih hcs]

theorem cstring_filled (s : List Char) (cap : Nat) (h : NUL ∉ s) :
    cstring (filled (s ++ [NUL]) cap) = some s := by
  have := cstring_append_nul s (List.replicate (cap - (s ++ [NUL]).length) none) h
  simpa [filled] using this

/-! ## `strtok` and the tokenizer -/

theorem maximalRuns_cons_delim (d : Char) (s : List Char) (h : isDelim CSH_TOK_DELIM d = true) :
    maximalRuns (d :: s) = maximalRuns s := by
  simp [maximalRuns, List.splitOnP_cons, h]

theorem maximalRuns_dropWhile (s : List Char) :
    maximalRuns (s.dropWhile (isDelim CSH_TOK_DELIM)) = maximalRuns s := by
  induction s with
  | nil => rfl
  | cons c cs ih =>
    by_cases h : isDelim CSH_TOK_DELIM c = true
    · rw [List.dropWhile_cons_of_pos h, ih, maximalRuns_cons_delim c cs h]
    · rw [List.dropWhile_cons_of_neg h]

theorem splitOnP_eq_takeWhile_cons (p : Char → Bool) (s : List Char) :
    s.splitOnP p = s.takeWhile (fun x => !p x) ::
      (match s.dropWhile (fun x => !p x) with
       | [] => []
       | _ :: r => r.splitOnP p) := by
  induction s with
  | nil => simp [List.splitOnP_nil]
  | cons c cs ih =>
    rw [List.splitOnP_cons]
    by_cases h : p c = true
    · simp [h]
    · simp only [h, Bool.false_eq_true, if_false]
      rw [ih]
      simp [List.takeWhile_cons, List.dropWhile_cons, h, List.modifyHead]

theorem strtok_none (s : List Char) (h : (strtok s CSH_TOK_DELIM).1 = none) :
    maximalRuns s = [] := by
  unfold strtok at h
  rw [← maximalRuns_dropWhile]
  split at h
  · rename_i heq; rw [heq]; rfl
  · simp at h

theorem strtok_some (s : List Char) (t : List Char) (h : (strtok s CSH_TOK_DELIM).1 = some t) :
    maximalRuns s = t :: maximalRuns (strtok s CSH_TOK_DELIM).2 ∧
      (strtok s CSH_TOK_DELIM).2.length < s.length := by
  have hlen := (List.dropWhile_sublist (l := s) (isDelim CSH_TOK_DELIM)).length_le
  cases hd : s.dropWhile (isDelim CSH_TOK_DELIM) with
  | nil => simp [strtok, hd] at h
  | cons c cs =>
    have hc : isDelim CSH_TOK_DELIM c = false := by
      have := List.head_dropWhile_not (isDelim CSH_TOK_DELIM) s (by simp [hd])
      simpa [hd] using this
    simp only [strtok, hd] at h ⊢
    simp only [Option.some.injEq] at h
    have hlen2 := (List.dropWhile_sublist (l := c :: cs)
      (fun x => !isDelim CSH_TOK_DELIM x)).length_le
    rw [hd] at hlen
    constructor
    · rw [← maximalRuns_dropWhile s, hd, ← h]
      unfold maximalRuns
      rw [splitOnP_eq_takeWhile_cons (isDelim CSH_TOK_DELIM) (c :: cs)]
      rw [List.filter_cons_of_pos (by simp [List.takeWhile_cons, hc])]
      congr 1
      cases hr : List.dropWhile (fun x => !isDelim CSH_TOK_DELIM x) (c :: cs) with
      | nil => simp [List.splitOnP_nil]
      | cons d r => simp
    · simp only [List.length_tail, List.length_cons] at hlen hlen2 ⊢
      omega

theorem pendingTokens_strtok (s : List Char) :
    pendingTokens (strtok s CSH_TOK_DELIM).1 (strtok s CSH_TOK_DELIM).2 = maximalRuns s := by
  cases h : (strtok s CSH_TOK_DELIM).1 with
  | none => simp [pendingTokens, strtok_none s h]
  | some t => simp [pendingTokens, (strtok_some s t h).1]

theorem csh_split_line_loop_spec (env : Env) (halloc : ∀ n, env.alloc n = true) :
    ∀ (fuel : Nat) (token : Option (List Char)) (saved : List Char) (bufsize : Nat)
      (written : List Ptr) (w : World),
      (token.isSome → saved.length < fuel) →
      bufsize = CSH_TOK_BUFSIZE * (written.length / CSH_TOK_BUFSIZE + 1) →
      csh_split_line_loop env fuel token saved bufsize written.length (filled written bufsize) w
        = .ret (filled (written ++ (pendingTokens token saved).map Ptr.str ++ [Ptr.null])
            (CSH_TOK_BUFSIZE *
              ((written.length + (pendingTokens token saved).length) / CSH_TOK_BUFSIZE + 1))) w := by
  intro fuel
  induction fuel with
  | zero =>
    intro token saved bufsize written w hfuel hcap
    cases token with
    | some t => simp at hfuel
    | none =>
      have hlt : written.length < bufsize := by
        rw [hcap]; unfold CSH_TOK_BUFSIZE; omega
      simp only [csh_split_line_loop]
      rw [store_filled written bufsize Ptr.null hlt]
      simp [pendingTokens, hcap]
  | succ fuel ih =>
    intro token saved bufsize written w hfuel hcap
    have hlt : written.length < bufsize := by
      rw [hcap]; unfold CSH_TOK_BUFSIZE; omega
    cases token with
    | none =>
      simp only [csh_split_line_loop]
      rw [store_filled written bufsize Ptr.null hlt]
      simp [pendingTokens, hcap]
    | some t =>
      have hnext : (strtok saved CSH_TOK_DELIM).1.isSome →
          (strtok saved CSH_TOK_DELIM).2.length < fuel := by
        intro hs
        obtain ⟨t2, ht2⟩ := Option.isSome_iff_exists.mp hs
        have := (strtok_some saved t2 ht2).2
        have := hfuel rfl
        omega
      have hpend : pendingTokens (some t) saved =
          t :: pendingTokens (strtok saved CSH_TOK_DELIM).1 (strtok saved CSH_TOK_DELIM).2 := by
        rw [pendingTokens_strtok]; rfl
      have hlen1 : (written ++ [Ptr.str t]).length = written.length + 1 := by simp
      rw [hpend]
      simp only [csh_split_line_loop, store_filled written bufsize (Ptr.str t) hlt, halloc,
        if_true]
      by_cases hge : written.length + 1 ≥ bufsize
      · rw [if_pos hge, realloc_filled _ _ _ (by rw [hlen1]; omega) (Nat.le_add_right _ _)]
        rw [← hlen1]
        rw [ih _ _ _ (written ++ [Ptr.str t]) w hnext
          (by rw [hlen1, hcap]; unfold CSH_TOK_BUFSIZE at *; omega)]
        congr 2
        · simp
        · simp only [hlen1, List.length_cons]; unfold CSH_TOK_BUFSIZE; omega
      · rw [if_neg hge]
        rw [← hlen1]
        rw [ih _ _ _ (written ++ [Ptr.str t]) w hnext
          (by rw [hlen1, hcap]; unfold CSH_TOK_BUFSIZE at *; omega)]
        congr 2
        · simp
        · simp only [hlen1, List.length_cons]; unfold CSH_TOK_BUFSIZE; omega

theorem csh_split_line_eq (env : Env) (halloc : ∀ n, env.alloc n = true) (line : List Char)
    (w : World) :
    csh_split_line env line w =
      .ret (filled ((maximalRuns line).map Ptr.str ++ [Ptr.null])
        (CSH_TOK_BUFSIZE * ((maximalRuns line).length / CSH_TOK_BUFSIZE + 1))) w := by
  unfold csh_split_line
  simp only [halloc, if_true]
  rw [malloc_eq_filled]
  have h := csh_split_line_loop_spec env halloc line.length (strtok line CSH_TOK_DELIM).1
    (strtok line CSH_TOK_DELIM).2 CSH_TOK_BUFSIZE [] w
    (fun hs => by
      obtain ⟨t, ht⟩ := Option.isSome_iff_exists.mp hs
      exact (strtok_some line t ht).2)
    (by simp)
  rw [pendingTokens_strtok] at h
  simpa using h

theorem mem_splitOnP_no_delim (p : Char → Bool) (l : List Char) :
    ∀ piece ∈ l.splitOnP p, ∀ x ∈ piece, p x = false := by
  induction l with
  | nil => simp [List.splitOnP_nil]
  | cons c cs ih =>
    rw [List.splitOnP_cons]
    by_cases h : p c = true
    · simp only [h, if_true]
      intro piece hp
      rcases List.mem_cons.mp hp with rfl | hp
      · simp
      · exact ih piece hp
    · simp only [h, Bool.false_eq_true, if_false]
      cases hs : List.splitOnP p cs with
      | nil => simp [List.modifyHead]
      | cons hd tl =>
        rw [hs] at ih
        intro piece hp
        simp only [List.modifyHead, List.mem_cons] at hp
        rcases hp with rfl | hp
        · intro x hx
          rcases List.mem_cons.mp hx with rfl | hx
          · simpa using h
          · exact ih hd (by simp) x hx
        · exact ih piece (by simp [hp])

theorem maximalRuns_mem (line : List Char) :
    ∀ t ∈ maximalRuns line, t ≠ [] ∧ ∀ c ∈ t, isDelim CSH_TOK_DELIM c = false := by
  intro t ht
  simp only [maximalRuns, List.mem_filter] at ht
  refine ⟨?_, mem_splitOnP_no_delim _ line t ht.1⟩
  intro e; simp [e] at ht

theorem maximalRuns_eq_nil_iff (line : List Char) :
    maximalRuns line = [] ↔ ∀ c ∈ line, isDelim CSH_TOK_DELIM c = true := by
  induction line with
  | nil => simp [maximalRuns, List.splitOnP_nil]
  | cons c cs ih =>
    by_cases h : isDelim CSH_TOK_DELIM c = true
    · rw [maximalRuns_cons_delim c cs h, ih]; simp [h]
    · constructor
      · intro hnil
        exfalso
        unfold maximalRuns at hnil
        rw [splitOnP_eq_takeWhile_cons, List.filter_cons_of_pos
          (by simp [List.takeWhile_cons, h])] at hnil
        simp at hnil
      · intro hall
        exact absurd (hall c (by simp)) h

theorem maximalRuns_joinWithSpace (toks : List (List Char))
    (h : ∀ t ∈ toks, t ≠ [] ∧ ∀ c ∈ t, isDelim CSH_TOK_DELIM c = false) :
    maximalRuns (joinWithSpace toks) = toks := by
  induction toks with
  | nil => simp [joinWithSpace, List.intercalate, maximalRuns, List.splitOnP_nil]
  | cons t ts ih =>
    have ht := h t (by simp)
    have hts := ih (fun t' ht' => h t' (by simp [ht']))
    have hne : (!t.isEmpty) = true := by
      cases t with
      | nil => exact absurd rfl ht.1
      | cons a b => rfl
    cases ts with
    | nil =>
      have hj : joinWithSpace [t] = t := by
        simp [joinWithSpace, List.intercalate]
      rw [hj]
      unfold maximalRuns
      rw [List.splitOnP_eq_single _ _ (fun x hx => by simp [ht.2 x hx])]
      simp [hne]
    | cons t2 ts2 =>
      have hj : joinWithSpace (t :: t2 :: ts2) = t ++ ' ' :: joinWithSpace (t2 :: ts2) := by
        simp [joinWithSpace, List.intercalate]
      rw [hj]
      unfold maximalRuns at hts ⊢
      rw [List.splitOnP_first _ _ (fun x hx => by simp [ht.2 x hx]) ' ' (by decide)]
      rw [List.filter_cons_of_pos (by simpa using hne), hts]

theorem getElem?_filled_last {α : Type} (l : List α) (x : α) (cap : Nat) :
    (filled (l ++ [x]) cap)[l.length]? = some (some x) := by
  have h : l.length = (l.map some).length := by simp
  simp only [filled, List.map_append, List.map_cons, List.map_nil, List.append_assoc]
  rw [h, List.getElem?_append_right (le_refl _)]
  simp

theorem not_mem_delim_of_isDelim (c : Char) (h : isDelim CSH_TOK_DELIM c = false) :
    c ∉ CSH_TOK_DELIM := by
  intro hc
  simp [isDelim, hc] at h

/-! ## The claims about `csh_split_line` -/

/-- C1: for every line, when the heap grants the requests, `csh_split_line`
returns a token array whose entries before the end marker are exactly the
maximal runs of non-delimiter characters of the line, in their left-to-right
order, the `NULL` end marker standing right after the last of them; this for
any number of tokens, whether or not the array had to grow. -/
theorem csh_split_line_returns_maximal_runs (env : Env) (line : List Char) (w : World)
    (halloc : ∀ n, env.alloc n = true) :
    ∃ tokens, csh_split_line env line w = .ret tokens w ∧
      argv tokens = some (maximalRuns line) ∧
      tokens[(maximalRuns line).length]? = some (some Ptr.null) := by
  refine ⟨_, csh_split_line_eq env halloc line w, argv_filled _ _, ?_⟩
  have := getElem?_filled_last ((maximalRuns line).map Ptr.str) Ptr.null
    (CSH_TOK_BUFSIZE * ((maximalRuns line).length / CSH_TOK_BUFSIZE + 1))
  simpa using this

/-- Witness of C1: the line `echo hello  world` gives `echo`, `hello`, `world`. -/
theorem csh_split_line_returns_maximal_runs_witness :
    (∀ n, plainEnv.alloc n = true) ∧
    maximalRuns "echo hello  world".toList = ["echo".toList, "hello".toList, "world".toList] ∧
    ∃ tokens, csh_split_line plainEnv "echo hello  world".toList ⟨[], []⟩ = .ret tokens ⟨[], []⟩ ∧
      argv tokens = some (maximalRuns "echo hello  world".toList) ∧
      tokens[(maximalRuns "echo hello  world".toList).length]? = some (some Ptr.null) :=
  ⟨fun _ => rfl, by decide,
    csh_split_line_returns_maximal_runs plainEnv "echo hello  world".toList ⟨[], []⟩
      (fun _ => rfl)⟩

/-- C2: for every line, when the heap grants the requests, no token that
`csh_split_line` returns is empty and no token contains one of the five
delimiter characters. -/
theorem csh_split_line_tokens_nonempty_delimiter_free (env : Env) (line : List Char)
    (w : World) (halloc : ∀ n, env.alloc n = true) :
    ∃ tokens toks, csh_split_line env line w = .ret tokens w ∧ argv tokens = some toks ∧
      ∀ t ∈ toks, t ≠ [] ∧ ∀ c ∈ t, c ∉ CSH_TOK_DELIM := by
  refine ⟨_, maximalRuns line, csh_split_line_eq env halloc line w, argv_filled _ _, ?_⟩
  intro t ht
  have h := maximalRuns_mem line t ht
  exact ⟨h.1, fun c hc => not_mem_delim_of_isDelim c (h.2 c hc)⟩

/-- Witness of C2 on a line with doubled, leading and trailing delimiters. -/
theorem csh_split_line_tokens_nonempty_delimiter_free_witness :
    (∀ n, plainEnv.alloc n = true) ∧
    ∃ tokens toks, csh_split_line plainEnv " a \t b\r ".toList ⟨[], []⟩ = .ret tokens ⟨[], []⟩ ∧
      argv tokens = some toks ∧ ∀ t ∈ toks, t ≠ [] ∧ ∀ c ∈ t, c ∉ CSH_TOK_DELIM :=
  ⟨fun _ => rfl,
    csh_split_line_tokens_nonempty_delimiter_free plainEnv " a \t b\r ".toList ⟨[], []⟩
      (fun _ => rfl)⟩

/-- C3: for every line, when the heap grants the requests, the token list
`csh_split_line` returns is empty, that is the first entry of the array is the
end marker, if and only if every character of the line is a delimiter; the
line of two spaces gives the empty token list. -/
theorem csh_split_line_empty_iff_only_delimiters (env : Env) (line : List Char) (w : World)
    (halloc : ∀ n, env.alloc n = true) :
    (∃ tokens toks, csh_split_line env line w = .ret tokens w ∧ argv tokens = some toks ∧
      (toks = [] ↔ ∀ c ∈ line, c ∈ CSH_TOK_DELIM) ∧
      (tokens[0]? = some (some Ptr.null) ↔ ∀ c ∈ line, c ∈ CSH_TOK_DELIM)) ∧
    (∃ tokens, csh_split_line env "  ".toList w = .ret tokens w ∧ argv tokens = some [] ∧
      tokens[0]? = some (some Ptr.null)) := by
  have hiff : maximalRuns line = [] ↔ ∀ c ∈ line, c ∈ CSH_TOK_DELIM := by
    rw [maximalRuns_eq_nil_iff]
    simp [isDelim]
  constructor
  · refine ⟨_, maximalRuns line, csh_split_line_eq env halloc line w, argv_filled _ _, hiff, ?_⟩
    rw [← hiff]
    cases h : maximalRuns line with
    | nil => simp [filled, CSH_TOK_BUFSIZE]
    | cons t ts => simp [filled]
  · have h2 : maximalRuns "  ".toList = [] := by decide
    refine ⟨_, csh_split_line_eq env halloc _ w, ?_, ?_⟩
    · rw [argv_filled, h2]
    · rw [h2]; simp [filled, CSH_TOK_BUFSIZE]

/-- Witness of C3 on the line made of a tab and a space. -/
theorem csh_split_line_empty_iff_only_delimiters_witness :
    (∀ n, plainEnv.alloc n = true) ∧
    ((∃ tokens toks, csh_split_line plainEnv "\t ".toList ⟨[], []⟩ = .ret tokens ⟨[], []⟩ ∧
      argv tokens = some toks ∧
      (toks = [] ↔ ∀ c ∈ "\t ".toList, c ∈ CSH_TOK_DELIM) ∧
      (tokens[0]? = some (some Ptr.null) ↔ ∀ c ∈ "\t ".toList, c ∈ CSH_TOK_DELIM)) ∧
    (∃ tokens, csh_split_line plainEnv "  ".toList ⟨[], []⟩ = .ret tokens ⟨[], []⟩ ∧
      argv tokens = some [] ∧ tokens[0]? = some (some Ptr.null))) :=
  ⟨fun _ => rfl,
    csh_split_line_empty_iff_only_delimiters plainEnv "\t ".toList ⟨[], []⟩ (fun _ => rfl)⟩

/-- C4: for every line, when the heap grants the requests, joining the tokens
of `csh_split_line` with a single space and splitting the joined string again
returns the same token array, hence the same token list. -/
theorem csh_split_line_rejoin_idempotent (env : Env) (line : List Char) (w : World)
    (halloc : ∀ n, env.alloc n = true) :
    ∃ tokens toks, csh_split_line env line w = .ret tokens w ∧ argv tokens = some toks ∧
      csh_split_line env (joinWithSpace toks) w = .ret tokens w := by
  refine ⟨_, maximalRuns line, csh_split_line_eq env halloc line w, argv_filled _ _, ?_⟩
  rw [csh_split_line_eq env halloc (joinWithSpace (maximalRuns line)) w,
    maximalRuns_joinWithSpace _ (maximalRuns_mem line)]

/-- Witness of C4: the line `  ls   -l ` is rejoined as `ls -l`. -/
theorem csh_split_line_rejoin_idempotent_witness :
    (∀ n, plainEnv.alloc n = true) ∧
    joinWithSpace (maximalRuns "  ls   -l ".toList) = "ls -l".toList ∧
    ∃ tokens toks, csh_split_line plainEnv "  ls   -l ".toList ⟨[], []⟩ = .ret tokens ⟨[], []⟩ ∧
      argv tokens = some toks ∧
      csh_split_line plainEnv (joinWithSpace toks) ⟨[], []⟩ = .ret tokens ⟨[], []⟩ :=
  ⟨fun _ => rfl, by decide,
    csh_split_line_rejoin_idempotent plainEnv "  ls   -l ".toList ⟨[], []⟩ (fun _ => rfl)⟩

/-! ## The claims about `csh_read_line` -/

theorem csh_read_line_loop_spec (env : Env) (halloc : ∀ n, env.alloc n = true)
    (line : List Char) (hline : '\n' ∉ line) (after : List Char)
    (hafter : after = [] ∨ ∃ rest, after = '\n' :: rest) :
    ∀ (bufsize : Nat) (written : List Char) (w : World),
      bufsize = CSH_RL_BUFSIZE * (written.length / CSH_RL_BUFSIZE + 1) →
      csh_read_line_loop env (line ++ after) bufsize written.length (filled written bufsize) w
        = .ret (filled (written ++ line ++ [NUL])
            (CSH_RL_BUFSIZE * ((written.length + line.length) / CSH_RL_BUFSIZE + 1)))
          { w with stdin := after.tail } := by
  induction line with
  | nil =>
    intro bufsize written w hcap
    have hlt : written.length < bufsize := by
      rw [hcap]; unfold CSH_RL_BUFSIZE; omega
    rcases hafter with rfl | ⟨rest, rfl⟩
    · simp only [List.append_nil, csh_read_line_loop]
      rw [store_filled written bufsize NUL hlt]
      simp [hcap]
    · simp only [List.nil_append, csh_read_line_loop, if_true]
      rw [store_filled written bufsize NUL hlt]
      simp [hcap]
  | cons c cs ih =>
    intro bufsize written w hcap
    have hlt : written.length < bufsize := by
      rw [hcap]; unfold CSH_RL_BUFSIZE; omega
    have hc : c ≠ '\n' := fun e => hline (by simp [e])
    have hcs : '\n' ∉ cs := fun e => hline (by simp [e])
    have hlen1 : (written ++ [c]).length = written.length + 1 := by simp
    simp only [List.cons_append, csh_read_line_loop, hc, if_false, halloc, if_true]
    rw [store_filled written bufsize c hlt]
    simp only [List.append_eq]
    by_cases hge : written.length + 1 ≥ bufsize
    · rw [if_pos hge, realloc_filled _ _ _ (by rw [hlen1]; omega) (Nat.le_add_right _ _)]
      rw [← hlen1]
      rw [ih hcs (bufsize + CSH_RL_BUFSIZE) (written ++ [c]) w
        (by rw [hlen1, hcap]; unfold CSH_RL_BUFSIZE at *; omega)]
      congr 2
      · simp
      · simp only [hlen1, List.length_cons]; unfold CSH_RL_BUFSIZE; omega
    · rw [if_neg hge]
      rw [← hlen1]
      rw [ih hcs bufsize (written ++ [c]) w
        (by rw [hlen1, hcap]; unfold CSH_RL_BUFSIZE at *; omega)]
      congr 2
      · simp
      · simp only [hlen1, List.length_cons]; unfold CSH_RL_BUFSIZE; omega

theorem csh_read_line_eq (env : Env) (halloc : ∀ n, env.alloc n = true)
    (line after : List Char) (hline : '\n' ∉ line)
    (hafter : after = [] ∨ ∃ rest, after = '\n' :: rest) (tr : List Event) :
    csh_read_line env ⟨line ++ after, tr⟩ =
      .ret (filled (line ++ [NUL]) (CSH_RL_BUFSIZE * (line.length / CSH_RL_BUFSIZE + 1)))
        ⟨after.tail, tr⟩ := by
  unfold csh_read_line
  simp only [halloc, if_true]
  rw [malloc_eq_filled]
  have h := csh_read_line_loop_spec env halloc line hline after hafter CSH_RL_BUFSIZE []
    ⟨line ++ after, tr⟩ (by simp)
  simpa using h

theorem csh_read_line_at_eof (env : Env) (tr : List Event)
    (halloc : env.alloc (SIZEOF_CHAR * CSH_RL_BUFSIZE) = true) :
    csh_read_line env ⟨[], tr⟩ = .ret (filled [NUL] CSH_RL_BUFSIZE) ⟨[], tr⟩ := by
  have hst := store_filled ([] : List Char) CSH_RL_BUFSIZE NUL (by decide)
  simp only [List.length_nil, List.nil_append] at hst
  unfold csh_read_line
  simp only [halloc, if_true]
  rw [malloc_eq_filled]
  simp only [csh_read_line_loop]
  rw [hst]

theorem csh_read_line_at_newline (env : Env) (rest : List Char) (tr : List Event)
    (halloc : env.alloc (SIZEOF_CHAR * CSH_RL_BUFSIZE) = true) :
    csh_read_line env ⟨'\n' :: rest, tr⟩ = .ret (filled [NUL] CSH_RL_BUFSIZE) ⟨rest, tr⟩ := by
  have hst := store_filled ([] : List Char) CSH_RL_BUFSIZE NUL (by decide)
  simp only [List.length_nil, List.nil_append] at hst
  unfold csh_read_line
  simp only [halloc, if_true]
  rw [malloc_eq_filled]
  rw [csh_read_line_loop, if_pos rfl, hst]

theorem csh_split_line_nil (env : Env) (w : World)
    (halloc : env.alloc (CSH_TOK_BUFSIZE * SIZEOF_CHAR_PTR) = true) :
    csh_split_line env [] w = .ret (filled [Ptr.null] CSH_TOK_BUFSIZE) w := by
  unfold csh_split_line
  simp only [halloc, if_true, malloc_eq_filled, strtok, List.dropWhile_nil, csh_split_line_loop]
  have := store_filled ([] : List Ptr) CSH_TOK_BUFSIZE Ptr.null (by decide)
  simp only [List.length_nil, List.nil_append] at this
  rw [this]

/-- C6, what the code does: with the first allocation granted, at
end-of-stream with no character read `csh_read_line` returns exactly what it
returns for a line that is only a newline: the buffer that holds the empty
string, in a world with nothing left to read.  The two results are equal, so
no caller can tell end-of-input from an empty line. -/
theorem csh_read_line_eof_same_as_empty_line (env : Env) (tr : List Event)
    (halloc : env.alloc (SIZEOF_CHAR * CSH_RL_BUFSIZE) = true) :
    csh_read_line env ⟨[], tr⟩ = csh_read_line env ⟨['\n'], tr⟩ ∧
    csh_read_line env ⟨[], tr⟩ = .ret (filled [NUL] CSH_RL_BUFSIZE) ⟨[], tr⟩ ∧
    cstring (filled [NUL] CSH_RL_BUFSIZE) = some [] := by
  refine ⟨?_, csh_read_line_at_eof env tr halloc, ?_⟩
  · rw [csh_read_line_at_eof env tr halloc, csh_read_line_at_newline env [] tr halloc]
  · exact cstring_filled [] CSH_RL_BUFSIZE (by simp)

/-- Witness of the C6 evaluation in the plain environment. -/
theorem csh_read_line_eof_same_as_empty_line_witness :
    plainEnv.alloc (SIZEOF_CHAR * CSH_RL_BUFSIZE) = true ∧
    (csh_read_line plainEnv ⟨[], []⟩ = csh_read_line plainEnv ⟨['\n'], []⟩ ∧
    csh_read_line plainEnv ⟨[], []⟩ = .ret (filled [NUL] CSH_RL_BUFSIZE) ⟨[], []⟩ ∧
    cstring (filled [NUL] CSH_RL_BUFSIZE) = some []) :=
  ⟨rfl, csh_read_line_eof_same_as_empty_line plainEnv [] rfl⟩

/-! ## The claims about `csh_loop` -/

theorem csh_loop_body_at_eof (env : Env) (tr : List Event)
    (hline : env.alloc (SIZEOF_CHAR * CSH_RL_BUFSIZE) = true)
    (htok : env.alloc (CSH_TOK_BUFSIZE * SIZEOF_CHAR_PTR) = true) :
    csh_loop_body env ⟨[], tr⟩ = .ret 1 ⟨[], tr ++ [Event.stdout "> ".toList]⟩ := by
  unfold csh_loop_body
  simp only [printf, World.emit]
  rw [csh_read_line_at_eof env _ hline]
  have hcs : cstring (filled [NUL] CSH_RL_BUFSIZE) = some [] :=
    cstring_filled [] CSH_RL_BUFSIZE (by simp)
  simp only [hcs]
  rw [csh_split_line_nil env _ htok]
  have : argv (filled [Ptr.null] CSH_TOK_BUFSIZE) = some [] := argv_filled [] CSH_TOK_BUFSIZE
  simp only [this, csh_execute]

/-- C7, what the code does: with the two first allocations granted, a turn of
the loop at end-of-input emits the prompt, reads the empty line, runs no
command and yields the status continue, the input still being at its end; so
whatever number of turns is allowed `csh_loop` is still running after them,
and `main` never reaches its `return EXIT_SUCCESS`. -/
theorem csh_loop_never_stops_at_end_of_input (env : Env)
    (hline : env.alloc (SIZEOF_CHAR * CSH_RL_BUFSIZE) = true)
    (htok : env.alloc (CSH_TOK_BUFSIZE * SIZEOF_CHAR_PTR) = true) :
    (∀ tr, csh_loop_body env ⟨[], tr⟩ = .ret 1 ⟨[], tr ++ [Event.stdout "> ".toList]⟩) ∧
    (∀ fuel tr, csh_loop env fuel ⟨[], tr⟩ = none) ∧
    (∀ fuel tr, main env fuel ⟨[], tr⟩ = none) := by
  have hbody := fun tr => csh_loop_body_at_eof env tr hline htok
  have hloop : ∀ fuel tr, csh_loop env fuel ⟨[], tr⟩ = none := by
    intro fuel
    induction fuel with
    | zero => intro tr; rfl
    | succ n ih =>
      intro tr
      simp only [csh_loop, hbody tr]
      simpa using ih _
  refine ⟨hbody, hloop, ?_⟩
  intro fuel tr
  simp only [main, hloop fuel tr]

/-- Witness of the C7 evaluation in the plain environment. -/
theorem csh_loop_never_stops_at_end_of_input_witness :
    (plainEnv.alloc (SIZEOF_CHAR * CSH_RL_BUFSIZE) = true ∧
      plainEnv.alloc (CSH_TOK_BUFSIZE * SIZEOF_CHAR_PTR) = true) ∧
    ((∀ tr, csh_loop_body plainEnv ⟨[], tr⟩ = .ret 1 ⟨[], tr ++ [Event.stdout "> ".toList]⟩) ∧
    (∀ fuel tr, csh_loop plainEnv fuel ⟨[], tr⟩ = none) ∧
    (∀ fuel tr, main plainEnv fuel ⟨[], tr⟩ = none)) :=
  ⟨⟨rfl, rfl⟩, csh_loop_never_stops_at_end_of_input plainEnv rfl rfl⟩

/-! ## The claims about `csh_execute` -/

theorem strcmp_eq_zero_iff (a b : List Char) : strcmp a b = 0 ↔ a = b := by
  induction a generalizing b with
  | nil => cases b <;> simp [strcmp]
  | cons x s ih =>
    cases b with
    | nil => simp [strcmp]
    | cons y t =>
      by_cases h : x = y
      · simp [strcmp, h, ih]
      · simp only [strcmp, h, if_false, List.cons.injEq, false_and, iff_false]
        split <;> simp

theorem csh_execute_cons (env : Env) (cmd : List Char) (rest : List (List Char)) (w : World) :
    csh_execute env (cmd :: rest) w =
      if cmd = "cd".toList then csh_cd env (cmd :: rest) w
      else if cmd = "help".toList then csh_help env (cmd :: rest) w
      else if cmd = "exit".toList then csh_exit env (cmd :: rest) w
      else csh_launch env (cmd :: rest) w := by
  simp only [csh_execute, csh_num_builtins, builtin_str, builtin_func, List.length_cons,
    List.length_nil, csh_execute_for, strcmp_eq_zero_iff]
  rfl

theorem csh_cd_returns (env : Env) (cmd : List Char) (rest : List (List Char)) (w : World) :
    ∃ added, (∃ w', csh_cd env (cmd :: rest) w = .ret 1 w' ∧ w'.trace = w.trace ++ added) ∧
      ∀ e ∈ added, isLaunchEvent e = false := by
  cases rest with
  | nil =>
    exact ⟨[Event.stderr "csh: expected argument to \"cd\"\n".toList],
      ⟨_, rfl, rfl⟩, by simp [isLaunchEvent]⟩
  | cons path more =>
    cases h : env.chdir w.trace path with
    | true =>
      refine ⟨[Event.chdir path true], ⟨w.emit (.chdir path true), ?_, rfl⟩, ?_⟩
      · simp [csh_cd, h]
      · simp [isLaunchEvent]
    | false =>
      refine ⟨[Event.chdir path false, Event.perror "csh".toList],
        ⟨perror "csh" (w.emit (.chdir path false)), ?_, ?_⟩, ?_⟩
      · simp [csh_cd, h]
      · simp [perror, World.emit]
      · simp [isLaunchEvent]

theorem csh_help_returns (env : Env) (args : List (List Char)) (w : World) :
    ∃ added, (∃ w', csh_help env args w = .ret 1 w' ∧ w'.trace = w.trace ++ added) ∧
      ∀ e ∈ added, isLaunchEvent e = false := by
  refine ⟨[Event.stdout "Amedeo Chiefa's Shell\n".toList,
    Event.stdout "Type program names and arguments, and hit enter.\n".toList,
    Event.stdout "The following are built in:\n".toList,
    Event.stdout "  cd\n".toList, Event.stdout "  help\n".toList, Event.stdout "  exit\n".toList,
    Event.stdout "Use the man command for information on other programs.\n".toList],
    ⟨_, rfl, ?_⟩, by simp [isLaunchEvent]⟩
  simp [printf, World.emit, builtin_str]

theorem csh_launch_wait_trace (pid : Int) (statuses : List WaitStatus) :
    ∀ w : World, ∃ added, (csh_launch_wait pid statuses w).world.trace = w.trace ++ added ∧
      ∀ e ∈ added, isLaunchEvent e = true := by
  induction statuses with
  | nil => intro w; exact ⟨[], by simp [csh_launch_wait, Res.world], by simp⟩
  | cons s later ih =>
    intro w
    simp only [csh_launch_wait]
    split
    · obtain ⟨added, h1, h2⟩ := ih (w.emit (.waitpid pid s))
      refine ⟨Event.waitpid pid s :: added, ?_, ?_⟩
      · rw [h1]; simp [World.emit]
      · intro e he
        rcases List.mem_cons.mp he with rfl | he
        · rfl
        · exact h2 e he
    · exact ⟨[Event.waitpid pid s], by simp [Res.world, World.emit], by simp [isLaunchEvent]⟩

theorem csh_launch_wait_returns (pid : Int) (statuses : List WaitStatus)
    (h : ∃ s ∈ statuses, WIFEXITED s = true ∨ WIFSIGNALED s = true) :
    ∀ w : World, ∃ w', csh_launch_wait pid statuses w = .ret () w' := by
  induction statuses with
  | nil => simp at h
  | cons s later ih =>
    intro w
    simp only [csh_launch_wait]
    split
    · rename_i hs
      obtain ⟨s2, hmem, hs2⟩ := h
      rcases List.mem_cons.mp hmem with rfl | hmem
      · rcases hs2 with h2 | h2 <;> simp [h2] at hs
      · exact ih ⟨s2, hmem, hs2⟩ _
    · exact ⟨_, rfl⟩

theorem csh_launch_trace (env : Env) (args : List (List Char)) (w : World) :
    ∃ more, (csh_launch env args w).world.trace =
        w.trace ++ Event.fork (env.fork w.trace) :: more ∧
      ∀ e ∈ more, isBuiltinEvent e = false := by
  unfold csh_launch
  simp only []
  by_cases h0 : (env.fork w.trace).pid = 0
  · rw [if_pos h0]
    cases args with
    | nil => exact ⟨[], by simp [Res.world, World.emit], by simp⟩
    | cons file rest =>
      cases hx : env.execvp (w.emit (.fork (env.fork w.trace))).trace file (file :: rest) with
      | true =>
        refine ⟨[Event.execvp file (file :: rest) true], ?_, by simp [isBuiltinEvent]⟩
        simp only [hx, if_true, Res.world]
        simp [World.emit]
      | false =>
        refine ⟨[Event.execvp file (file :: rest) false, Event.perror "csh".toList], ?_,
          by simp [isBuiltinEvent]⟩
        simp only [hx, Res.world]
        simp [World.emit, perror]
  · rw [if_neg h0]
    by_cases hneg : (env.fork w.trace).pid < 0
    · rw [if_pos hneg]
      exact ⟨[Event.perror "csh".toList], by simp [Res.world, World.emit, perror],
        by simp [isBuiltinEvent]⟩
    · rw [if_neg hneg]
      obtain ⟨added, h1, h2⟩ := csh_launch_wait_trace (env.fork w.trace).pid
        (env.fork w.trace).statuses (w.emit (.fork (env.fork w.trace)))
      refine ⟨added, ?_, ?_⟩
      · cases hw : csh_launch_wait (env.fork w.trace).pid (env.fork w.trace).statuses
            (w.emit (.fork (env.fork w.trace))) with
        | ret v w2 =>
          rw [hw] at h1
          simpa [Res.world, World.emit] using h1
        | halt hh w2 =>
          rw [hw] at h1
          simpa [Res.world, World.emit] using h1
      · intro e he
        have := h2 e he
        cases e <;> simp_all [isLaunchEvent, isBuiltinEvent]

theorem csh_launch_returns_one (env : Env) (args : List (List Char)) (w : World) (v : Int)
    (w' : World) (h : csh_launch env args w = .ret v w') : v = 1 := by
  unfold csh_launch at h
  simp only [] at h
  split at h
  · cases args with
    | nil => simp at h
    | cons file rest =>
      simp only [] at h
      split at h <;> simp at h
  · split at h
    · simp only [Res.ret.injEq] at h
      exact h.1.symm
    · split at h
      · simp only [Res.ret.injEq] at h
        exact h.1.symm
      · simp at h

theorem not_builtin_iff (cmd : List Char) :
    cmd ∉ builtin_str ↔ cmd ≠ "cd".toList ∧ cmd ≠ "help".toList ∧ cmd ≠ "exit".toList := by
  simp [builtin_str]

theorem csh_execute_not_builtin (env : Env) (cmd : List Char) (rest : List (List Char))
    (w : World) (h : cmd ∉ builtin_str) :
    csh_execute env (cmd :: rest) w = csh_launch env (cmd :: rest) w := by
  obtain ⟨h1, h2, h3⟩ := (not_builtin_iff cmd).mp h
  rw [csh_execute_cons, if_neg h1, if_neg h2, if_neg h3]

/-- C8: for every token list, `csh_execute` returns the stop signal `0` if and
only if the first token is exactly `exit`, whatever follows it, and then it
returns at once in the unchanged world.  Every value it returns is `0` or `1`.
The empty command, `cd` and `help` always return continue `1`; an external
launch returns `1` when `fork` fails (negative pid), and when `fork` succeeds
in the parent (positive pid) and one of the reported wait statuses says the
child exited or was killed by a signal, however the child ended. -/
theorem csh_execute_stops_iff_exit (env : Env) (args : List (List Char)) (w : World) :
    ((∃ w', csh_execute env args w = .ret 0 w') ↔ args.head? = some "exit".toList) ∧
    (args.head? = some "exit".toList → csh_execute env args w = .ret 0 w) ∧
    (∀ v w', csh_execute env args w = .ret v w' → v = 0 ∨ v = 1) ∧
    (args = [] → csh_execute env args w = .ret 1 w) ∧
    (args.head? = some "cd".toList → ∃ w', csh_execute env args w = .ret 1 w') ∧
    (args.head? = some "help".toList → ∃ w', csh_execute env args w = .ret 1 w') ∧
    (∀ cmd, args.head? = some cmd → cmd ∉ builtin_str →
      ((env.fork w.trace).pid < 0 → ∃ w', csh_execute env args w = .ret 1 w') ∧
      (0 < (env.fork w.trace).pid →
        (∃ s ∈ (env.fork w.trace).statuses, WIFEXITED s = true ∨ WIFSIGNALED s = true) →
        ∃ w', csh_execute env args w = .ret 1 w')) := by
  cases args with
  | nil =>
    refine ⟨?_, ?_, ?_, ?_, ?_, ?_, ?_⟩ <;> simp [csh_execute]
  | cons cmd rest =>
    have hval : ∀ v w', csh_execute env (cmd :: rest) w = .ret v w' →
        (v = 0 ∧ cmd = "exit".toList) ∨ v = 1 := by
      intro v w' h
      rw [csh_execute_cons] at h
      split at h
      · obtain ⟨_, ⟨w2, h2, _⟩, _⟩ := csh_cd_returns env cmd rest w
        rw [h2] at h; simp only [Res.ret.injEq] at h; exact Or.inr h.1.symm
      · split at h
        · obtain ⟨_, ⟨w2, h2, _⟩, _⟩ := csh_help_returns env (cmd :: rest) w
          rw [h2] at h; simp only [Res.ret.injEq] at h; exact Or.inr h.1.symm
        · split at h
          · rename_i he
            simp only [csh_exit, Res.ret.injEq] at h
            exact Or.inl ⟨h.1.symm, he⟩
          · exact Or.inr (csh_launch_returns_one env _ w v w' h)
    have hexit : cmd = "exit".toList → csh_execute env (cmd :: rest) w = .ret 0 w := by
      intro he
      rw [csh_execute_cons, he]
      rfl
    refine ⟨⟨?_, ?_⟩, ?_, ?_, ?_, ?_, ?_, ?_⟩
    · rintro ⟨w', h⟩
      rcases hval 0 w' h with ⟨_, he⟩ | h0
      · simp [he]
      · exact absurd h0 (by decide)
    · intro h
      exact ⟨w, hexit (by simpa using h)⟩
    · intro h
      exact hexit (by simpa using h)
    · intro v w' h
      rcases hval v w' h with ⟨h0, _⟩ | h1
      · exact Or.inl h0
      · exact Or.inr h1
    · intro h; simp at h
    · intro h
      have he : cmd = "cd".toList := by simpa using h
      obtain ⟨_, ⟨w2, h2, _⟩, _⟩ := csh_cd_returns env cmd rest w
      exact ⟨w2, by rw [csh_execute_cons, if_pos he]; exact h2⟩
    · intro h
      have he : cmd = "help".toList := by simpa using h
      obtain ⟨_, ⟨w2, h2, _⟩, _⟩ := csh_help_returns env (cmd :: rest) w
      refine ⟨w2, ?_⟩
      rw [csh_execute_cons, if_neg (by rw [he]; decide), if_pos he]
      exact h2
    · intro cmd2 hc hnb
      have hc2 : cmd = cmd2 := by simpa using hc
      subst hc2
      rw [csh_execute_not_builtin env cmd rest w hnb]
      constructor
      · intro hf
        refine ⟨perror "csh" (w.emit (.fork (env.fork w.trace))), ?_⟩
        simp only [csh_launch]
        rw [if_neg (by omega), if_pos hf]
      · intro hf hs
        obtain ⟨w2, h2⟩ := csh_launch_wait_returns (env.fork w.trace).pid
          (env.fork w.trace).statuses hs (w.emit (.fork (env.fork w.trace)))
        refine ⟨w2, ?_⟩
        simp only [csh_launch]
        rw [if_neg (by omega), if_neg (by omega), h2]

/-- Witness of C8: `exit anything` stops, in the unchanged world. -/
theorem csh_execute_stops_iff_exit_witness :
    csh_execute plainEnv ["exit".toList, "anything".toList] ⟨[], []⟩ = .ret 0 ⟨[], []⟩ :=
  (csh_execute_stops_iff_exit plainEnv ["exit".toList, "anything".toList] ⟨[], []⟩).2.1
    (by decide)

/-- C9: for every token list with a first token, `csh_execute` runs the `cd`,
`help` or `exit` handler when that token is exactly `cd`, `help` or `exit`,
and then performs no `fork`, `execvp` or `waitpid`; for every other first
token, such as `xyz123`, `CD` or `cdx`, it runs `csh_launch`, whose first
action is the `fork`, and performs no action of a builtin handler. -/
theorem csh_execute_builtin_before_launch (env : Env) (cmd : List Char)
    (rest : List (List Char)) (w : World) :
    (cmd = "cd".toList → csh_execute env (cmd :: rest) w = csh_cd env (cmd :: rest) w) ∧
    (cmd = "help".toList → csh_execute env (cmd :: rest) w = csh_help env (cmd :: rest) w) ∧
    (cmd = "exit".toList → csh_execute env (cmd :: rest) w = csh_exit env (cmd :: rest) w) ∧
    (cmd ∈ builtin_str → ∃ added,
      (csh_execute env (cmd :: rest) w).world.trace = w.trace ++ added ∧
      ∀ e ∈ added, isLaunchEvent e = false) ∧
    (cmd ∉ builtin_str →
      csh_execute env (cmd :: rest) w = csh_launch env (cmd :: rest) w ∧
      ∃ more, (csh_execute env (cmd :: rest) w).world.trace =
          w.trace ++ Event.fork (env.fork w.trace) :: more ∧
        ∀ e ∈ more, isBuiltinEvent e = false) ∧
    ("xyz123".toList ∉ builtin_str ∧ "CD".toList ∉ builtin_str ∧ "cdx".toList ∉ builtin_str) := by
  have hcd : cmd = "cd".toList →
      csh_execute env (cmd :: rest) w = csh_cd env (cmd :: rest) w := by
    intro he; rw [csh_execute_cons, if_pos he]
  have hhelp : cmd = "help".toList →
      csh_execute env (cmd :: rest) w = csh_help env (cmd :: rest) w := by
    intro he; rw [csh_execute_cons, if_neg (by rw [he]; decide), if_pos he]
  have hexit : cmd = "exit".toList →
      csh_execute env (cmd :: rest) w = csh_exit env (cmd :: rest) w := by
    intro he
    rw [csh_execute_cons, if_neg (by rw [he]; decide), if_neg (by rw [he]; decide), if_pos he]
  refine ⟨hcd, hhelp, hexit, ?_, ?_, by decide⟩
  · intro hmem
    simp only [builtin_str, List.mem_cons, List.mem_singleton, List.not_mem_nil, or_false]
      at hmem
    rcases hmem with he | he | he
    · obtain ⟨added, ⟨w2, h2, h3⟩, h4⟩ := csh_cd_returns env cmd rest w
      exact ⟨added, by rw [hcd he, h2]; exact h3, h4⟩
    · obtain ⟨added, ⟨w2, h2, h3⟩, h4⟩ := csh_help_returns env (cmd :: rest) w
      exact ⟨added, by rw [hhelp he, h2]; exact h3, h4⟩
    · exact ⟨[], by rw [hexit he]; simp [csh_exit, Res.world], by simp⟩
  · intro hnb
    refine ⟨csh_execute_not_builtin env cmd rest w hnb, ?_⟩
    rw [csh_execute_not_builtin env cmd rest w hnb]
    exact csh_launch_trace env (cmd :: rest) w

/-- Witness of C9: `cdx` is no builtin and goes to `csh_launch`. -/
theorem csh_execute_builtin_before_launch_witness :
    csh_execute plainEnv ["cdx".toList] ⟨[], []⟩ = csh_launch plainEnv ["cdx".toList] ⟨[], []⟩ :=
  ((csh_execute_builtin_before_launch plainEnv "cdx".toList [] ⟨[], []⟩).2.2.2.2.1
    (by decide)).1

/-- C10: for the empty token list `csh_execute` returns continue `1` in the
unchanged world: nothing is written and no process is created.  This is the
result of none of the handlers nor of `csh_launch` on that list. -/
theorem csh_execute_empty_is_noop (env : Env) (w : World) :
    csh_execute env [] w = .ret 1 w ∧
    (csh_execute env [] w).world.trace = w.trace ∧
    csh_execute env [] w ≠ csh_cd env [] w ∧
    csh_execute env [] w ≠ csh_help env [] w ∧
    csh_execute env [] w ≠ csh_exit env [] w ∧
    csh_execute env [] w ≠ csh_launch env [] w := by
  refine ⟨rfl, rfl, ?_, ?_, ?_, ?_⟩
  · simp [csh_execute, csh_cd]
  · intro h
    obtain ⟨added, ⟨w2, h2, h3⟩, _⟩ := csh_help_returns env [] w
    have hw := congrArg (fun r => r.world.trace.length) h
    simp [csh_execute, csh_help, Res.world, printf, World.emit, builtin_str] at hw
  · simp [csh_execute, csh_exit]
  · intro h
    obtain ⟨more, h1, _⟩ := csh_launch_trace env [] w
    rw [← h] at h1
    have hw := congrArg List.length h1
    simp [csh_execute, Res.world] at hw

/-! ## The builtin `cd`, the wait loop, the messages, the input frame -/

/-- C12: for the token list made of `cd` alone, `csh_cd` writes exactly the
line `csh: expected argument to "cd"` to standard error, performs nothing
else, in particular no `chdir`, and returns continue `1`; `csh_execute` does
the same on that list. -/
theorem csh_cd_without_argument (env : Env) (w : World) :
    csh_cd env ["cd".toList] w =
      .ret 1 ⟨w.stdin, w.trace ++ [Event.stderr "csh: expected argument to \"cd\"\n".toList]⟩ ∧
    csh_execute env ["cd".toList] w = csh_cd env ["cd".toList] w ∧
    (∀ path ok, Event.chdir path ok ∉
      [Event.stderr "csh: expected argument to \"cd\"\n".toList]) := by
  refine ⟨rfl, ?_, ?_⟩
  · rw [csh_execute_cons, if_pos rfl]
  · intro path ok h
    simp at h

theorem csh_launch_wait_until_terminated (pid : Int) (earlier : List WaitStatus)
    (s : WaitStatus) (later : List WaitStatus)
    (hearlier : ∀ x ∈ earlier, WIFEXITED x = false ∧ WIFSIGNALED x = false)
    (hs : WIFEXITED s = true ∨ WIFSIGNALED s = true) :
    ∀ w : World, csh_launch_wait pid (earlier ++ s :: later) w =
      .ret () ⟨w.stdin, w.trace ++ (earlier ++ [s]).map (Event.waitpid pid)⟩ := by
  induction earlier with
  | nil =>
    intro w
    have hc : (!WIFEXITED s && !WIFSIGNALED s) = false := by
      rcases hs with h | h <;> simp [h]
    simp [csh_launch_wait, hc, World.emit]
  | cons x xs ih =>
    intro w
    have hx := hearlier x (by simp)
    have hc : (!WIFEXITED x && !WIFSIGNALED x) = true := by simp [hx.1, hx.2]
    simp only [List.cons_append, csh_launch_wait, hc, if_true, List.append_eq]
    rw [ih (fun y hy => hearlier y (by simp [hy]))]
    simp [World.emit]

theorem csh_launch_wait_all_waiting (pid : Int) (earlier : List WaitStatus)
    (hearlier : ∀ x ∈ earlier, WIFEXITED x = false ∧ WIFSIGNALED x = false) :
    ∀ w : World, csh_launch_wait pid earlier w =
      .halt .hang ⟨w.stdin, w.trace ++ earlier.map (Event.waitpid pid)⟩ := by
  induction earlier with
  | nil => intro w; simp [csh_launch_wait]
  | cons x xs ih =>
    intro w
    have hx := hearlier x (by simp)
    have hc : (!WIFEXITED x && !WIFSIGNALED x) = true := by simp [hx.1, hx.2]
    simp only [csh_launch_wait, hc, if_true]
    rw [ih (fun y hy => hearlier y (by simp [hy]))]
    simp [World.emit]

/-- C15: in the parent, whatever statuses `waitpid` reports, the wait loop
calls `waitpid` again after every status that says neither exited nor
signaled, and returns at the first status that says the child exited or was
killed by a signal, later statuses never being asked for; `csh_launch` then
returns continue `1`.  With no such status the loop keeps waiting. -/
theorem csh_launch_wait_returns_at_first_termination (pid : Int)
    (earlier : List WaitStatus) (s : WaitStatus) (later : List WaitStatus) (w : World)
    (hearlier : ∀ x ∈ earlier, WIFEXITED x = false ∧ WIFSIGNALED x = false)
    (hs : WIFEXITED s = true ∨ WIFSIGNALED s = true) :
    csh_launch_wait pid (earlier ++ s :: later) w =
      .ret () ⟨w.stdin, w.trace ++ (earlier ++ [s]).map (Event.waitpid pid)⟩ ∧
    csh_launch_wait pid earlier w =
      .halt .hang ⟨w.stdin, w.trace ++ earlier.map (Event.waitpid pid)⟩ ∧
    (∀ (env : Env) (args : List (List Char)),
      env.fork w.trace = ⟨pid, earlier ++ s :: later⟩ → 0 < pid →
      csh_launch env args w =
        .ret 1 ⟨w.stdin, w.trace ++ Event.fork ⟨pid, earlier ++ s :: later⟩ ::
          (earlier ++ [s]).map (Event.waitpid pid)⟩) := by
  refine ⟨csh_launch_wait_until_terminated pid earlier s later hearlier hs w,
    csh_launch_wait_all_waiting pid earlier hearlier w, ?_⟩
  intro env args hf hpid
  simp only [csh_launch, hf]
  rw [if_neg (by omega), if_neg (by omega),
    csh_launch_wait_until_terminated pid earlier s later hearlier hs]
  simp [World.emit]

/-- Witness of C15: a stop, then an exit, then a status never asked for. -/
theorem csh_launch_wait_returns_at_first_termination_witness :
    csh_launch_wait 7 ([WaitStatus.stopped 19] ++ WaitStatus.exited 0 :: [WaitStatus.exited 1])
        ⟨[], []⟩ =
      .ret () ⟨[], [] ++ ([WaitStatus.stopped 19] ++ [WaitStatus.exited 0]).map
        (Event.waitpid 7)⟩ :=
  (csh_launch_wait_returns_at_first_termination 7 [WaitStatus.stopped 19] (WaitStatus.exited 0)
    [WaitStatus.exited 1] ⟨[], []⟩ (by decide) (by decide)).1

/-- C16, what the code does: when the first allocation of `csh_split_line`
is refused, the message written to standard error is `lsh: allocation error`,
which does not start with `csh: `, and the process exits with failure; the
first allocation of `csh_read_line`, when refused, gives the message
`csh: allocation error`. -/
theorem csh_split_line_first_allocation_message (env : Env) (line : List Char) (w : World)
    (hrefused : env.alloc (CSH_TOK_BUFSIZE * SIZEOF_CHAR_PTR) = false) :
    csh_split_line env line w =
      .halt (.exit EXIT_FAILURE)
        ⟨w.stdin, w.trace ++ [Event.stderr "lsh: allocation error\n".toList]⟩ ∧
    ¬ ("csh: ".toList <+: "lsh: allocation error\n".toList) ∧
    (env.alloc (SIZEOF_CHAR * CSH_RL_BUFSIZE) = false →
      csh_read_line env w =
        .halt (.exit EXIT_FAILURE)
          ⟨w.stdin, w.trace ++ [Event.stderr "csh: allocation error\n".toList]⟩) := by
  refine ⟨?_, by decide, ?_⟩
  · simp only [csh_split_line, hrefused]
    rfl
  · intro h
    simp only [csh_read_line, h]
    rfl

/-- Witness of the C16 evaluation in the environment whose heap grants nothing. -/
theorem csh_split_line_first_allocation_message_witness :
    noHeapEnv.alloc (CSH_TOK_BUFSIZE * SIZEOF_CHAR_PTR) = false ∧
    csh_split_line noHeapEnv "ls".toList ⟨[], []⟩ =
      .halt (.exit EXIT_FAILURE) ⟨[], [] ++ [Event.stderr "lsh: allocation error\n".toList]⟩ :=
  ⟨rfl, (csh_split_line_first_allocation_message noHeapEnv "ls".toList ⟨[], []⟩ rfl).1⟩

theorem length_realloc {α : Type} (b : Block α) (n : Nat) (h : b.length ≤ n) :
    (realloc b n).length = n := by
  simp [realloc]; omega

theorem store_in_bounds {α : Type} (b : Block α) (i : Nat) (v : α) (h : i < b.length) :
    ∃ b', b.store i v = some b' ∧ b'.length = b.length ∧ b'[i]? = some (some v) := by
  refine ⟨b.set i (some v), by simp [Block.store, h], by simp, ?_⟩
  simp [List.getElem?_set, h]

theorem csh_read_line_loop_safe (env : Env) :
    ∀ (input : List Char) (bufsize position : Nat) (buffer : Block Char) (w : World),
      buffer.length = bufsize → position < bufsize →
      (∃ b w', csh_read_line_loop env input bufsize position buffer w = .ret b w') ∨
      (∃ w', csh_read_line_loop env input bufsize position buffer w =
        .halt (.exit EXIT_FAILURE) w') := by
  intro input
  induction input with
  | nil =>
    intro bufsize position buffer w hlen hpos
    obtain ⟨b', hb, _, _⟩ := store_in_bounds buffer position NUL (by omega)
    simp only [csh_read_line_loop, hb]
    exact Or.inl ⟨_, _, rfl⟩
  | cons c input ih =>
    intro bufsize position buffer w hlen hpos
    by_cases hc : c = '\n'
    · obtain ⟨b', hb, _, _⟩ := store_in_bounds buffer position NUL (by omega)
      simp only [csh_read_line_loop, hc, if_true, hb]
      exact Or.inl ⟨_, _, rfl⟩
    · obtain ⟨b', hb, hlen', _⟩ := store_in_bounds buffer position c (by omega)
      simp only [csh_read_line_loop, hc, if_false, hb]
      by_cases hge : position + 1 ≥ bufsize
      · rw [if_pos hge]
        cases ha : env.alloc (bufsize + CSH_RL_BUFSIZE) with
        | true =>
          simp only [if_true]
          exact ih _ _ _ w (length_realloc _ _ (by omega))
            (by unfold CSH_RL_BUFSIZE; omega)
        | false =>
          simp only [Bool.false_eq_true, if_false]
          exact Or.inr ⟨_, rfl⟩
      · rw [if_neg hge]
        exact ih _ _ _ w (by omega) (by omega)

theorem csh_split_line_loop_safe (env : Env) :
    ∀ (fuel : Nat) (token : Option (List Char)) (saved : List Char) (bufsize position : Nat)
      (tokens : Block Ptr) (w : World),
      tokens.length = bufsize → position < bufsize →
      (token.isSome → saved.length < fuel) →
      (∃ t w', csh_split_line_loop env fuel token saved bufsize position tokens w = .ret t w') ∨
      (∃ w', csh_split_line_loop env fuel token saved bufsize position tokens w =
        .halt (.exit EXIT_FAILURE) w') := by
  intro fuel
  induction fuel with
  | zero =>
    intro token saved bufsize position tokens w hlen hpos hfuel
    cases token with
    | some t => simp at hfuel
    | none =>
      obtain ⟨b', hb, _, _⟩ := store_in_bounds tokens position Ptr.null (by omega)
      simp only [csh_split_line_loop, hb]
      exact Or.inl ⟨_, _, rfl⟩
  | succ fuel ih =>
    intro token saved bufsize position tokens w hlen hpos hfuel
    cases token with
    | none =>
      obtain ⟨b', hb, _, _⟩ := store_in_bounds tokens position Ptr.null (by omega)
      simp only [csh_split_line_loop, hb]
      exact Or.inl ⟨_, _, rfl⟩
    | some t =>
      have hnext : (strtok saved CSH_TOK_DELIM).1.isSome →
          (strtok saved CSH_TOK_DELIM).2.length < fuel := by
        intro hs
        obtain ⟨t2, ht2⟩ := Option.isSome_iff_exists.mp hs
        have := (strtok_some saved t2 ht2).2
        have := hfuel rfl
        omega
      obtain ⟨b', hb, hlen', _⟩ := store_in_bounds tokens position (Ptr.str t) (by omega)
      simp only [csh_split_line_loop, hb]
      by_cases hge : position + 1 ≥ bufsize
      · rw [if_pos hge]
        cases ha : env.alloc ((bufsize + CSH_TOK_BUFSIZE) * SIZEOF_CHAR_PTR) with
        | true =>
          simp only [if_true]
          exact ih _ _ _ _ _ w (length_realloc _ _ (by omega))
            (by unfold CSH_TOK_BUFSIZE; omega) hnext
        | false =>
          simp only [Bool.false_eq_true, if_false]
          exact Or.inr ⟨_, rfl⟩
      · rw [if_neg hge]
        exact ih _ _ _ _ _ w (by omega) (by omega) hnext

theorem csh_read_line_eq_first_line (env : Env) (halloc : ∀ n, env.alloc n = true) (w : World) :
    csh_read_line env w =
      .ret (filled (w.stdin.takeWhile (fun c => c ≠ '\n') ++ [NUL])
          (CSH_RL_BUFSIZE *
            ((w.stdin.takeWhile (fun c => c ≠ '\n')).length / CSH_RL_BUFSIZE + 1)))
        ⟨(w.stdin.dropWhile (fun c => c ≠ '\n')).tail, w.trace⟩ := by
  obtain ⟨stdin, tr⟩ := w
  have hline : '\n' ∉ stdin.takeWhile (fun c => c ≠ '\n') := by
    intro hmem
    have := List.mem_takeWhile_imp hmem
    simp at this
  have hafter : stdin.dropWhile (fun c => decide (c ≠ '\n')) = [] ∨
      ∃ rest, stdin.dropWhile (fun c => decide (c ≠ '\n')) = '\n' :: rest := by
    cases hd : stdin.dropWhile (fun c => decide (c ≠ '\n')) with
    | nil => exact Or.inl rfl
    | cons d rest =>
      right
      have := List.head_dropWhile_not (fun c => decide (c ≠ '\n')) stdin
        (by rw [hd]; exact List.cons_ne_nil _ _)
      simp only [hd, List.head_cons] at this
      exact ⟨rest, by simpa using this⟩
  have heq := csh_read_line_eq env halloc _ _ hline hafter tr
  rw [List.takeWhile_append_dropWhile] at heq
  exact heq

/-- C17: in `csh_read_line` no write leaves the buffer.  From every state of
the loop in which `position` is below `bufsize`, the capacity of the buffer,
the rest of the run never writes outside the buffer, the final `NUL`
included: the call returns, or exits on a refused allocation.  The loop starts
in such a state, so this holds of `csh_read_line` for every input and every
heap; and when the heap grants the requests the call returns with the `NUL`
at the index that is the length of the line, below the capacity. -/
theorem csh_read_line_writes_in_bounds (env : Env) (w : World) :
    (∀ (input : List Char) (bufsize position : Nat) (buffer : Block Char) (w0 : World),
      buffer.length = bufsize → position < bufsize →
      (∃ b w', csh_read_line_loop env input bufsize position buffer w0 = .ret b w') ∨
      (∃ w', csh_read_line_loop env input bufsize position buffer w0 =
        .halt (.exit EXIT_FAILURE) w')) ∧
    ((∃ b w', csh_read_line env w = .ret b w') ∨
      (∃ w', csh_read_line env w = .halt (.exit EXIT_FAILURE) w')) ∧
    ((∀ n, env.alloc n = true) →
      ∃ b w', csh_read_line env w = .ret b w' ∧
        (w.stdin.takeWhile (fun c => c ≠ '\n')).length < b.length ∧
        b[(w.stdin.takeWhile (fun c => c ≠ '\n')).length]? = some (some NUL)) := by
  refine ⟨csh_read_line_loop_safe env, ?_, ?_⟩
  · by_cases ha : env.alloc (SIZEOF_CHAR * CSH_RL_BUFSIZE) = true
    · simp only [csh_read_line, ha, if_true]
      exact csh_read_line_loop_safe env _ _ _ _ w (by simp [malloc]) (by decide)
    · simp only [csh_read_line, ha, if_false]
      exact Or.inr ⟨_, rfl⟩
  · intro halloc
    refine ⟨_, _, csh_read_line_eq_first_line env halloc w, ?_, getElem?_filled_last _ _ _⟩
    rw [length_filled _ _ (by simp; unfold CSH_RL_BUFSIZE; omega)]
    unfold CSH_RL_BUFSIZE; omega

/-- Witness of C17 on a line of exactly 1024 characters, where the buffer
grows before the `NUL` is written. -/
theorem csh_read_line_writes_in_bounds_witness :
    ∃ b w', csh_read_line plainEnv ⟨List.replicate 1024 'a', []⟩ = .ret b w' ∧
      ((⟨List.replicate 1024 'a', []⟩ : World).stdin.takeWhile (fun c => c ≠ '\n')).length
        < b.length ∧
      b[((⟨List.replicate 1024 'a', []⟩ : World).stdin.takeWhile
        (fun c => c ≠ '\n')).length]? = some (some NUL) :=
  (csh_read_line_writes_in_bounds plainEnv ⟨List.replicate 1024 'a', []⟩).2.2 (fun _ => rfl)

/-- C18: in `csh_split_line` no write leaves the token array.  From every
state of the loop in which `position` is below `bufsize`, the capacity of the
array, the rest of the run never writes outside the array, the final `NULL`
included: the call returns, or exits on a refused allocation.  The loop starts
in such a state, so this holds of `csh_split_line` for every line and every
heap; and when the heap grants the requests the call returns with the `NULL`
end marker at the index that is the number of tokens, below the capacity. -/
theorem csh_split_line_writes_in_bounds (env : Env) (line : List Char) (w : World) :
    (∀ (fuel : Nat) (token : Option (List Char)) (saved : List Char) (bufsize position : Nat)
      (tokens : Block Ptr) (w0 : World),
      tokens.length = bufsize → position < bufsize →
      (token.isSome → saved.length < fuel) →
      (∃ t w', csh_split_line_loop env fuel token saved bufsize position tokens w0 =
        .ret t w') ∨
      (∃ w', csh_split_line_loop env fuel token saved bufsize position tokens w0 =
        .halt (.exit EXIT_FAILURE) w')) ∧
    ((∃ t w', csh_split_line env line w = .ret t w') ∨
      (∃ w', csh_split_line env line w = .halt (.exit EXIT_FAILURE) w')) ∧
    ((∀ n, env.alloc n = true) →
      ∃ tokens, csh_split_line env line w = .ret tokens w ∧
        argv tokens = some (maximalRuns line) ∧
        (maximalRuns line).length < tokens.length ∧
        tokens[(maximalRuns line).length]? = some (some Ptr.null) ∧
        tokens.length =
          CSH_TOK_BUFSIZE * ((maximalRuns line).length / CSH_TOK_BUFSIZE + 1)) := by
  refine ⟨csh_split_line_loop_safe env, ?_, ?_⟩
  · by_cases ha : env.alloc (CSH_TOK_BUFSIZE * SIZEOF_CHAR_PTR) = true
    · simp only [csh_split_line, ha, if_true]
      refine csh_split_line_loop_safe env _ _ _ _ _ _ w (by simp [malloc]) (by decide) ?_
      intro hs
      obtain ⟨t, ht⟩ := Option.isSome_iff_exists.mp hs
      exact (strtok_some line t ht).2
    · simp only [csh_split_line, ha, if_false]
      exact Or.inr ⟨_, rfl⟩
  · intro halloc
    have hlen : (filled ((maximalRuns line).map Ptr.str ++ [Ptr.null])
        (CSH_TOK_BUFSIZE * ((maximalRuns line).length / CSH_TOK_BUFSIZE + 1))).length =
        CSH_TOK_BUFSIZE * ((maximalRuns line).length / CSH_TOK_BUFSIZE + 1) :=
      length_filled _ _ (by simp; unfold CSH_TOK_BUFSIZE; omega)
    refine ⟨_, csh_split_line_eq env halloc line w, argv_filled _ _, ?_, ?_, hlen⟩
    · rw [hlen]; unfold CSH_TOK_BUFSIZE; omega
    · have := getElem?_filled_last ((maximalRuns line).map Ptr.str) Ptr.null
        (CSH_TOK_BUFSIZE * ((maximalRuns line).length / CSH_TOK_BUFSIZE + 1))
      simpa using this

theorem maximalRuns_replicate (k : Nat) :
    maximalRuns (joinWithSpace (List.replicate k ['a'])) = List.replicate k ['a'] := by
  apply maximalRuns_joinWithSpace
  intro t ht
  rw [List.eq_of_mem_replicate ht]
  exact ⟨by simp, by decide⟩

/-- Witness of C18 on lines of exactly 63, 64 and 65 tokens: the end marker
is at index 63 of 64 cells, at index 64 of 128 cells, at index 65 of 128
cells. -/
theorem csh_split_line_writes_in_bounds_witness :
    (∃ tokens, csh_split_line plainEnv (joinWithSpace (List.replicate 63 ['a'])) ⟨[], []⟩ =
        .ret tokens ⟨[], []⟩ ∧ tokens[63]? = some (some Ptr.null) ∧ tokens.length = 64) ∧
    (∃ tokens, csh_split_line plainEnv (joinWithSpace (List.replicate 64 ['a'])) ⟨[], []⟩ =
        .ret tokens ⟨[], []⟩ ∧ tokens[64]? = some (some Ptr.null) ∧ tokens.length = 128) ∧
    (∃ tokens, csh_split_line plainEnv (joinWithSpace (List.replicate 65 ['a'])) ⟨[], []⟩ =
        .ret tokens ⟨[], []⟩ ∧ tokens[65]? = some (some Ptr.null) ∧ tokens.length = 128) := by
  refine ⟨?_, ?_, ?_⟩
  · obtain ⟨tokens, h1, _, _, h4, h5⟩ := (csh_split_line_writes_in_bounds plainEnv
      (joinWithSpace (List.replicate 63 ['a'])) ⟨[], []⟩).2.2 (fun _ => rfl)
    rw [maximalRuns_replicate, List.length_replicate] at h4 h5
    exact ⟨tokens, h1, h4, h5⟩
  · obtain ⟨tokens, h1, _, _, h4, h5⟩ := (csh_split_line_writes_in_bounds plainEnv
      (joinWithSpace (List.replicate 64 ['a'])) ⟨[], []⟩).2.2 (fun _ => rfl)
    rw [maximalRuns_replicate, List.length_replicate] at h4 h5
    exact ⟨tokens, h1, h4, h5⟩
  · obtain ⟨tokens, h1, _, _, h4, h5⟩ := (csh_split_line_writes_in_bounds plainEnv
      (joinWithSpace (List.replicate 65 ['a'])) ⟨[], []⟩).2.2 (fun _ => rfl)
    rw [maximalRuns_replicate, List.length_replicate] at h4 h5
    exact ⟨tokens, h1, h4, h5⟩

end CSH
